import Mathlib

/-!
Verification of the cache core of the yamata-no-orochi repository.

The development shallowly embeds `src/resources/cache.rs` (the `Cache<K, V>`
resource and its `Cacheable::get_or_insert_with` implementation) and
`src/resources/anilist.rs` (the `AniList` accessor) and proves the cache
claims against the embedding.  The backing `std::collections::HashMap` is
modelled as an association list whose `insert` replaces any previous binding
of the key; asynchronous methods are modelled as pure state-passing
functions, and the number of remote-client invocations performed by a call
is returned as an explicit counter so that claims about "no remote call"
can be stated.
-/

namespace YamataNoOrochi

variable {K : Type} {V : Type} [DecidableEq K]

/-- Lookup in the association-list model of `HashMap`: `map.get(&key)`. -/
def mapGet : List (K × V) → K → Option V
  | [], _ => none
  | p :: rest, k => if p.1 = k then some p.2 else mapGet rest k

/-- Insertion in the association-list model of `HashMap`:
`map.insert(key, value)` replaces any existing binding of `key`. -/
def mapInsert (m : List (K × V)) (k : K) (v : V) : List (K × V) :=
  (k, v) :: m.filter (fun p => !decide (p.1 = k))

/-- Removal in the association-list model of `HashMap`: `map.remove(&key)`. -/
def mapRemove (m : List (K × V)) (k : K) : List (K × V) :=
  m.filter (fun p => !decide (p.1 = k))

/-- The cache resource of `src/resources/cache.rs`: a shared map.  The
`Arc<Mutex<...>>` wrapper is modelled away: each method of the Rust code
holds the lock for its whole body, so every method is one atomic map
operation. -/
structure Cache (K V : Type) where
  map : List (K × V)

namespace Cache

/-- `Cache::new` (`src/resources/cache.rs`, lines 29-33). -/
def new : Cache K V := ⟨[]⟩

/-- `Cache::insert` (`src/resources/cache.rs`, lines 36-39). -/
def insert (c : Cache K V) (k : K) (v : V) : Cache K V :=
  ⟨mapInsert c.map k v⟩

/-- `Cache::get` (`src/resources/cache.rs`, lines 42-45): returns a clone of
the stored value, if any. -/
def get (c : Cache K V) (k : K) : Option V :=
  mapGet c.map k

/-- `Cache::remove` (`src/resources/cache.rs`, lines 48-51). -/
def remove (c : Cache K V) (k : K) : Cache K V :=
  ⟨mapRemove c.map k⟩

/-- `Cacheable::get_or_insert_with` for `Cache` (`src/resources/cache.rs`,
lines 85-97).  The third component counts how many times the producer `f`
was invoked by this call. -/
def get_or_insert_with (c : Cache K V) (k : K) (f : Unit → V) :
    V × Cache K V × Nat :=
  match c.get k with
  | some value => (value, c, 0)
  | none =>
    let value := f ()
    (value, c.insert k value, 1)

end Cache

/-- Reading back a freshly inserted binding. -/
theorem mapGet_mapInsert_self (m : List (K × V)) (k : K) (v : V) :
    mapGet (mapInsert m k v) k = some v := by
  simp [mapInsert, mapGet]

/-- Filtering out a key other than the one looked up does not change the
lookup. -/
theorem mapGet_filter_ne (m : List (K × V)) {k k' : K} (h : k' ≠ k) :
    mapGet (m.filter (fun p => !decide (p.1 = k'))) k = mapGet m k := by
  induction m with
  | nil => rfl
  | cons p rest ih =>
    rw [List.filter_cons]
    by_cases hp : p.1 = k'
    · have hpk : p.1 ≠ k := fun hk => h (hp ▸ hk)
      have hcond : (!decide (p.1 = k')) = false := by simp [hp]
      rw [hcond]
      simp [mapGet, hpk, ih]
    · have hcond : (!decide (p.1 = k')) = true := by simp [hp]
      rw [hcond]
      by_cases hk : p.1 = k
      · simp [mapGet, hk]
      · simp [mapGet, hk, ih]

/-- Inserting under a different key does not change the lookup. -/
theorem mapGet_mapInsert_ne (m : List (K × V)) {k k' : K} (v' : V)
    (h : k' ≠ k) : mapGet (mapInsert m k' v') k = mapGet m k := by
  have h2 := mapGet_filter_ne m h
  simp [mapInsert, mapGet, h, h2]

/-- Removing a different key does not change the lookup. -/
theorem mapGet_mapRemove_ne (m : List (K × V)) {k k' : K} (h : k' ≠ k) :
    mapGet (mapRemove m k') k = mapGet m k :=
  mapGet_filter_ne m h

/-- Lookup of an absent key yields `none`. -/
theorem mapGet_eq_none_of_not_mem {m : List (K × V)} {k : K}
    (h : k ∉ m.map Prod.fst) : mapGet m k = none := by
  induction m with
  | nil => rfl
  | cons p rest ih =>
    have hp : p.1 ≠ k := by
      intro hk
      exact h (by simp [hk])
    have hrest : k ∉ rest.map Prod.fst := by
      intro hk
      exact h (by simp [hk])
    simp [mapGet, hp, ih hrest]

/-- On a map with no duplicate keys, lookup returns the unique stored
binding. -/
theorem mapGet_eq_some_of_mem {m : List (K × V)} {k : K} {v : V}
    (hnd : (m.map Prod.fst).Nodup) (hmem : (k, v) ∈ m) :
    mapGet m k = some v := by
  induction m with
  | nil => cases hmem
  | cons p rest ih =>
    rcases List.mem_cons.mp hmem with heq | hmem'
    · subst heq
      simp [mapGet]
    · have hp : p.1 ∉ rest.map Prod.fst := (List.nodup_cons.mp hnd).1
      have hk : k ∈ rest.map Prod.fst :=
        List.mem_map.mpr ⟨(k, v), hmem', rfl⟩
      have hpk : p.1 ≠ k := by
        intro h
        exact hp (h ▸ hk)
      have hnd' : (rest.map Prod.fst).Nodup := (List.nodup_cons.mp hnd).2
      simp [mapGet, hpk, ih hnd' hmem']

/-- C6.  Read-your-write: after `insert(k, v)` completes, `get(k)` returns
`Some(v)`, and this persists across inserts and removes of other keys
(`src/resources/cache.rs`, lines 36-39 and 42-45). -/
theorem C6_read_your_write (c : Cache K V) (k : K) (v : V) :
    (c.insert k v).get k = some v ∧
      (∀ k' v', k' ≠ k → ((c.insert k v).insert k' v').get k = some v) ∧
      (∀ k', k' ≠ k → ((c.insert k v).remove k').get k = some v) := by
  refine ⟨mapGet_mapInsert_self c.map k v, ?_, ?_⟩
  · intro k' v' hne
    show mapGet (mapInsert (mapInsert c.map k v) k' v') k = some v
    rw [mapGet_mapInsert_ne _ v' hne, mapGet_mapInsert_self]
  · intro k' hne
    show mapGet (mapRemove (mapInsert c.map k v) k') k = some v
    rw [mapGet_mapRemove_ne _ hne, mapGet_mapInsert_self]

/-- Witness for C6 at concrete inputs. -/
theorem C6_read_your_write_witness :
    ((Cache.new : Cache Nat Nat).insert 1 10).get 1 = some 10 ∧
      (((Cache.new : Cache Nat Nat).insert 1 10).insert 2 20).get 1
        = some 10 ∧
      (((Cache.new : Cache Nat Nat).insert 1 10).remove 2).get 1
        = some 10 := by
  obtain ⟨h1, h2, h3⟩ := C6_read_your_write (Cache.new : Cache Nat Nat) 1 10
  exact ⟨h1, h2 2 20 (by decide), h3 2 (by decide)⟩

/-- C7.  `get` semantics: on a well-formed state (no duplicate keys, which
every reachable `HashMap` state satisfies) `get` returns the stored value of
a present key and `none` for an absent key; the embedding makes it a pure
function of the state, so it modifies nothing and performs no fetch
(`src/resources/cache.rs`, lines 42-45). -/
theorem C7_get_semantics (c : Cache K V) (k : K) :
    ((c.map.map Prod.fst).Nodup →
        ∀ v, (k, v) ∈ c.map → c.get k = some v) ∧
      (k ∉ c.map.map Prod.fst → c.get k = none) := by
  constructor
  · intro hnd v hmem
    exact mapGet_eq_some_of_mem hnd hmem
  · intro habs
    exact mapGet_eq_none_of_not_mem habs

/-- Witness for C7 at concrete inputs. -/
theorem C7_get_semantics_witness :
    (Cache.mk [(1, 10), (2, 20)] : Cache Nat Nat).get 1 = some 10 ∧
      (Cache.mk [(1, 10), (2, 20)] : Cache Nat Nat).get 3 = none := by
  constructor
  · exact (C7_get_semantics (Cache.mk [(1, 10), (2, 20)]) 1).1
      (by decide) 10 (by decide)
  · exact (C7_get_semantics (Cache.mk [(1, 10), (2, 20)]) 3).2 (by decide)

/-- C3.  Fetch-or-populate correctness of `get_or_insert_with`: on a miss the
producer is invoked exactly once, its value is stored under the key and
returned; on a hit the cached value is returned and the producer is not
invoked (`src/resources/cache.rs`, lines 85-97). -/
theorem C3_get_or_insert_with_correct (c : Cache K V) (k : K) (f : Unit → V) :
    (c.get k = none →
        c.get_or_insert_with k f = (f (), c.insert k (f ()), 1) ∧
          (c.get_or_insert_with k f).2.1.get k = some (f ())) ∧
      (∀ v, c.get k = some v → c.get_or_insert_with k f = (v, c, 0)) := by
  constructor
  · intro hmiss
    have hm : mapGet c.map k = none := hmiss
    constructor
    · simp [Cache.get_or_insert_with, Cache.get, hm]
    · simp [Cache.get_or_insert_with, Cache.get, hm, Cache.insert,
        mapGet_mapInsert_self]
  · intro v hhit
    simp [Cache.get_or_insert_with, hhit]

/-- Witness for C3 at concrete inputs. -/
theorem C3_get_or_insert_with_witness :
    ((Cache.new : Cache Nat Nat).get_or_insert_with 1 (fun _ => 10)
        = (10, Cache.new.insert 1 10, 1) ∧
      ((Cache.new : Cache Nat Nat).get_or_insert_with 1
          (fun _ => 10)).2.1.get 1 = some 10) ∧
      (Cache.mk [(1, 10)] : Cache Nat Nat).get_or_insert_with 1
          (fun _ => 99) = (10, Cache.mk [(1, 10)], 0) := by
  constructor
  · exact (C3_get_or_insert_with_correct (Cache.new : Cache Nat Nat) 1
      (fun _ => 10)).1 (by decide)
  · exact (C3_get_or_insert_with_correct (Cache.mk [(1, 10)] : Cache Nat Nat)
      1 (fun _ => 99)).2 10 (by decide)

/-- Modelled from the spec: the bounded cache revision.  `Cache::with_capacity`
is called from `src/resources/anilist.rs` (lines 40-43) and
`src/middlewares/authenticate_anilist.rs` (line 35), but its definition — a
cache that stores a fixed capacity at construction and whose `insert` clears
the whole map before inserting once the size has reached capacity — is not
part of `src/resources/cache.rs`, which holds the unbounded revision above.
The structure and its operations follow spec sections 3 and 4.1. -/
structure BoundedCache (K V : Type) where
  capacity : Nat
  map : List (K × V)

namespace BoundedCache

/-- Modelled from the spec: `Cache::with_capacity(capacity)` creates an empty
cache with the given fixed capacity (spec section 6: set at construction
time and immutable thereafter). -/
def with_capacity (capacity : Nat) : BoundedCache K V :=
  ⟨capacity, []⟩

/-- Modelled from the spec, section 4.1: bounded `insert` — "if the map size
is already ≥ capacity, the entire map is cleared before inserting". -/
def insert (c : BoundedCache K V) (k : K) (v : V) : BoundedCache K V :=
  if c.capacity ≤ c.map.length then ⟨c.capacity, mapInsert [] k v⟩
  else ⟨c.capacity, mapInsert c.map k v⟩

/-- Modelled from the spec, section 4.1: `get` returns the stored value if
present, `none` otherwise. -/
def get (c : BoundedCache K V) (k : K) : Option V :=
  mapGet c.map k

end BoundedCache

/-- A whole sequence of inserts applied to a freshly constructed cache of
the given capacity. -/
def runInserts (cap : Nat) (ops : List (K × V)) : BoundedCache K V :=
  ops.foldl (fun c p => c.insert p.1 p.2) (BoundedCache.with_capacity cap)

/-- `insert` never changes the capacity. -/
theorem BoundedCache.insert_capacity (c : BoundedCache K V) (k : K) (v : V) :
    (c.insert k v).capacity = c.capacity := by
  unfold BoundedCache.insert
  split <;> rfl

/-- Inserting on a full cache leaves exactly the new entry. -/
theorem BoundedCache.insert_full {c : BoundedCache K V}
    (h : c.capacity ≤ c.map.length) (k : K) (v : V) :
    (c.insert k v).map = [(k, v)] := by
  simp [BoundedCache.insert, h, mapInsert]

/-- An insert grows the underlying map by at most one entry. -/
theorem mapInsert_length_le (m : List (K × V)) (k : K) (v : V) :
    (mapInsert m k v).length ≤ m.length + 1 := by
  simp only [mapInsert, List.length_cons]
  exact Nat.succ_le_succ (List.Sublist.length_le (List.filter_sublist m))

/-- A bounded insert keeps the map size within capacity. -/
theorem BoundedCache.insert_length_le {c : BoundedCache K V}
    (hcap : 1 ≤ c.capacity) (hlen : c.map.length ≤ c.capacity)
    (k : K) (v : V) : (c.insert k v).map.length ≤ c.capacity := by
  unfold BoundedCache.insert
  split
  · simpa [mapInsert] using hcap
  · rename_i hfull
    have hlt : c.map.length < c.capacity := Nat.lt_of_not_le hfull
    exact le_trans (mapInsert_length_le c.map k v) hlt

/-- Folding inserts never changes the capacity. -/
theorem foldl_insert_capacity (ops : List (K × V)) (c : BoundedCache K V) :
    (ops.foldl (fun c p => c.insert p.1 p.2) c).capacity = c.capacity := by
  induction ops generalizing c with
  | nil => rfl
  | cons p rest ih =>
    rw [List.foldl_cons, ih, BoundedCache.insert_capacity]

/-- Folding inserts keeps the map size within capacity. -/
theorem foldl_insert_length_le (ops : List (K × V)) (c : BoundedCache K V)
    (hcap : 1 ≤ c.capacity) (hlen : c.map.length ≤ c.capacity) :
    (ops.foldl (fun c p => c.insert p.1 p.2) c).map.length ≤ c.capacity := by
  induction ops generalizing c with
  | nil => exact hlen
  | cons p rest ih =>
    rw [List.foldl_cons]
    have h1 := BoundedCache.insert_capacity c p.1 p.2
    have h2 : (c.insert p.1 p.2).map.length ≤ (c.insert p.1 p.2).capacity := by
      rw [h1]
      exact BoundedCache.insert_length_le hcap hlen p.1 p.2
    have h3 := ih (c.insert p.1 p.2) (by rw [h1]; exact hcap) h2
    rw [h1] at h3
    exact h3

/-- C1.  Capacity invariant, modelled from the spec: for every capacity
`cap ≥ 1` (the observed construction uses 50) and every sequence of
completed inserts applied to `with_capacity cap`, the number of distinct
keys in the cache is at most `cap`.  Every prefix of a sequence is itself a
sequence of inserts, so this bounds the size after each insert. -/
theorem C1_capacity_invariant (cap : Nat) (hcap : 1 ≤ cap)
    (ops : List (K × V)) :
    ((runInserts cap ops).map.map Prod.fst).toFinset.card ≤ cap := by
  have h1 : (runInserts cap ops).map.length ≤ cap :=
    foldl_insert_length_le ops (BoundedCache.with_capacity cap) hcap
      (by simp [BoundedCache.with_capacity])
  calc ((runInserts cap ops).map.map Prod.fst).toFinset.card
      ≤ ((runInserts cap ops).map.map Prod.fst).length :=
        List.toFinset_card_le _
    _ = (runInserts cap ops).map.length := by simp
    _ ≤ cap := h1

/-- Witness for C1 at concrete inputs (capacity 50, three inserts with a
repeated key). -/
theorem C1_capacity_invariant_witness :
    1 ≤ 50 ∧
      ((runInserts 50 [((1 : Nat), (10 : Nat)), (2, 20), (1, 30)]).map.map
          Prod.fst).toFinset.card ≤ 50 :=
  ⟨by decide, C1_capacity_invariant 50 (by decide) [(1, 10), (2, 20), (1, 30)]⟩

/-- Inserting a key absent from the map just prepends the binding. -/
theorem mapInsert_fresh {m : List (K × V)} {k : K} (v : V)
    (h : k ∉ m.map Prod.fst) : mapInsert m k v = (k, v) :: m := by
  unfold mapInsert
  congr 1
  apply List.filter_eq_self.mpr
  intro p hp
  have hne : p.1 ≠ k := by
    intro he
    exact h (List.mem_map.mpr ⟨p, hp, he⟩)
  simp [hne]

/-- Folding inserts whose keys are fresh and pairwise distinct, with room
to spare, accumulates all the bindings without any clear. -/
theorem foldl_insert_fresh (ops : List (K × V)) (c : BoundedCache K V)
    (hdisj : ∀ a ∈ ops.map Prod.fst, a ∉ c.map.map Prod.fst)
    (hnd : (ops.map Prod.fst).Nodup)
    (hlen : c.map.length + ops.length ≤ c.capacity) :
    (ops.foldl (fun c p => c.insert p.1 p.2) c).map = ops.reverse ++ c.map := by
  induction ops generalizing c with
  | nil => simp
  | cons p rest ih =>
    rw [List.foldl_cons]
    have hlen' : c.map.length + (rest.length + 1) ≤ c.capacity := by
      simpa using hlen
    have hxlen : ¬ c.capacity ≤ c.map.length := by omega
    have hfresh : p.1 ∉ c.map.map Prod.fst := hdisj p.1 (by simp)
    have hstep : c.insert p.1 p.2
        = ⟨c.capacity, (p.1, p.2) :: c.map⟩ := by
      unfold BoundedCache.insert
      rw [if_neg hxlen, mapInsert_fresh _ hfresh]
    rw [hstep]
    have hnd0 : (p.1 :: rest.map Prod.fst).Nodup := by simpa using hnd
    have hhead : p.1 ∉ rest.map Prod.fst := (List.nodup_cons.mp hnd0).1
    have hnd' : (rest.map Prod.fst).Nodup := (List.nodup_cons.mp hnd0).2
    have hdisj' : ∀ a ∈ rest.map Prod.fst,
        a ∉ ((p.1, p.2) :: c.map).map Prod.fst := by
      intro a ha hmem
      rw [List.map_cons] at hmem
      rcases List.mem_cons.mp hmem with h1 | h2
      · exact hhead (h1 ▸ ha)
      · exact hdisj a (by simp [ha]) h2
    have hres := ih ⟨c.capacity, (p.1, p.2) :: c.map⟩ hdisj' hnd'
      (by simp only [List.length_cons]; omega)
    rw [hres]
    simp

/-- C2.  Whole-cache eviction, modelled from the spec: an insert performed
when the map already holds at least `capacity` entries clears the whole map
before the new entry goes in; hence inserting `capacity + 1` distinct keys
into a fresh cache leaves exactly the last binding, and `get` on every
previously inserted key returns `none`. -/
theorem C2_whole_cache_eviction (cap : Nat) (front : List (K × V)) (k : K)
    (v : V) (hnd : ((front ++ [(k, v)]).map Prod.fst).Nodup)
    (hlen : front.length = cap) :
    (∀ (c : BoundedCache K V) (k' : K) (v' : V),
        c.capacity ≤ c.map.length → (c.insert k' v').map = [(k', v')]) ∧
      (runInserts cap (front ++ [(k, v)])).map = [(k, v)] ∧
      ∀ p ∈ front, (runInserts cap (front ++ [(k, v)])).get p.1 = none := by
  have hmapkeys : (front ++ [(k, v)]).map Prod.fst
      = front.map Prod.fst ++ [k] := by simp
  have hnd2 : (front.map Prod.fst ++ [k]).Nodup := by
    rw [← hmapkeys]
    exact hnd
  obtain ⟨hndf, -, hdisjkeys⟩ := List.nodup_append.mp hnd2
  have hknotin : k ∉ front.map Prod.fst := by
    intro hk
    exact hdisjkeys hk (by simp)
  have hrunfront : (front.foldl (fun c p => c.insert p.1 p.2)
      (BoundedCache.with_capacity cap : BoundedCache K V)).map
      = front.reverse := by
    have h := foldl_insert_fresh front (BoundedCache.with_capacity cap)
      (by intro a ha; simp [BoundedCache.with_capacity]) hndf
      (by simp [BoundedCache.with_capacity, hlen])
    simpa [BoundedCache.with_capacity] using h
  have hcap2 : (front.foldl (fun c p => c.insert p.1 p.2)
      (BoundedCache.with_capacity cap : BoundedCache K V)).capacity = cap :=
    foldl_insert_capacity front _
  have hfull : (front.foldl (fun c p => c.insert p.1 p.2)
      (BoundedCache.with_capacity cap : BoundedCache K V)).capacity
      ≤ (front.foldl (fun c p => c.insert p.1 p.2)
        (BoundedCache.with_capacity cap : BoundedCache K V)).map.length := by
    rw [hcap2, hrunfront]
    simp [hlen]
  have hfinal : (runInserts cap (front ++ [(k, v)])).map = [(k, v)] := by
    unfold runInserts
    rw [List.foldl_append]
    simp only [List.foldl_cons, List.foldl_nil]
    exact BoundedCache.insert_full hfull k v
  refine ⟨fun c k' v' h => BoundedCache.insert_full h k' v', hfinal, ?_⟩
  intro p hp
  have hpk : k ≠ p.1 := by
    intro he
    exact hknotin (he ▸ List.mem_map.mpr ⟨p, hp, rfl⟩)
  show mapGet (runInserts cap (front ++ [(k, v)])).map p.1 = none
  rw [hfinal]
  simp [mapGet, hpk]

/-- Witness for C2: capacity 2, inserting the three distinct keys 1, 2, 3
leaves only key 3 and evicts keys 1 and 2. -/
theorem C2_whole_cache_eviction_witness :
    (runInserts 2 [((1 : Nat), (10 : Nat)), (2, 20), (3, 30)]).map
        = [(3, 30)] ∧
      (runInserts 2 [((1 : Nat), (10 : Nat)), (2, 20), (3, 30)]).get 1
        = none ∧
      (runInserts 2 [((1 : Nat), (10 : Nat)), (2, 20), (3, 30)]).get 2
        = none := by
  obtain ⟨-, h2, h3⟩ := C2_whole_cache_eviction 2 [(1, 10), (2, 20)] 3 30
    (by decide) (by decide)
  exact ⟨h2, h3 (1, 10) (by decide), h3 (2, 20) (by decide)⟩

/-- The error type of the `rust_anilist` client as used by
`src/resources/anilist.rs`: the code only ever constructs `Error::InvalidId`
and otherwise treats errors abstractly, so one extra variant stands for
every other remote failure (not-found, transport, timeout). -/
inductive Error where
  | InvalidId
  | ApiError
deriving DecidableEq

/-- The `AniList` resource of `src/resources/anilist.rs` (lines 22-33): one
cache per entity kind.  The entity payloads are opaque, so the structure is
parameterized over them; the remote `client` is modelled as a function
argument of each method rather than a stored field. -/
structure AniList (Anime Manga User Character : Type) where
  cache_anime : BoundedCache Int Anime
  cache_manga : BoundedCache Int Manga
  cache_user : BoundedCache Int User
  cache_char : BoundedCache Int Character

namespace AniList

variable {Anime Manga User Character : Type}

/-- `AniList::new` (`src/resources/anilist.rs`, lines 37-45): every kind's
cache is created with capacity 50. -/
def new : AniList Anime Manga User Character :=
  ⟨BoundedCache.with_capacity 50, BoundedCache.with_capacity 50,
    BoundedCache.with_capacity 50, BoundedCache.with_capacity 50⟩

/-- `AniList::get_anime` (`src/resources/anilist.rs`, lines 56-68).
`client` stands for `self.client.get_anime`; the third component of the
result counts how many remote calls the invocation performed. -/
def get_anime (client : Int → Except Error Anime)
    (s : AniList Anime Manga User Character) (id : Int) :
    Except Error Anime × AniList Anime Manga User Character × Nat :=
  match s.cache_anime.get id with
  | some anime => (Except.ok anime, s, 0)
  | none =>
    match client id with
    | Except.ok anime =>
      (Except.ok anime,
        { s with cache_anime := s.cache_anime.insert id anime }, 1)
    | Except.error _ => (Except.error Error.InvalidId, s, 1)

/-- `AniList::get_manga` (`src/resources/anilist.rs`, lines 79-91). -/
def get_manga (client : Int → Except Error Manga)
    (s : AniList Anime Manga User Character) (id : Int) :
    Except Error Manga × AniList Anime Manga User Character × Nat :=
  match s.cache_manga.get id with
  | some manga => (Except.ok manga, s, 0)
  | none =>
    match client id with
    | Except.ok manga =>
      (Except.ok manga,
        { s with cache_manga := s.cache_manga.insert id manga }, 1)
    | Except.error _ => (Except.error Error.InvalidId, s, 1)

/-- `AniList::search_anime` (`src/resources/anilist.rs`, lines 150-152):
a pure pass-through to `self.client.search_anime`. -/
def search_anime (client : String → Nat → Nat → Option (List Anime))
    (s : AniList Anime Manga User Character) (title : String)
    (page limit : Nat) :
    Option (List Anime) × AniList Anime Manga User Character × Nat :=
  (client title page limit, s, 1)

/-- `AniList::search_manga` (`src/resources/anilist.rs`, lines 165-167). -/
def search_manga (client : String → Nat → Nat → Option (List Manga))
    (s : AniList Anime Manga User Character) (title : String)
    (page limit : Nat) :
    Option (List Manga) × AniList Anime Manga User Character × Nat :=
  (client title page limit, s, 1)

/-- `AniList::search_user` (`src/resources/anilist.rs`, lines 180-182). -/
def search_user (client : String → Nat → Nat → Option (List User))
    (s : AniList Anime Manga User Character) (name : String)
    (page limit : Nat) :
    Option (List User) × AniList Anime Manga User Character × Nat :=
  (client name page limit, s, 1)

/-- `AniList::search_char` (`src/resources/anilist.rs`, lines 195-203): the
client call is commented out and the body returns `None` unconditionally,
performing no remote call. -/
def search_char (client : String → Nat → Nat → Option (List Character))
    (s : AniList Anime Manga User Character) (name : String)
    (page limit : Nat) :
    Option (List Character) × AniList Anime Manga User Character × Nat :=
  (none, s, 0)

end AniList

/-- A bounded insert always makes the inserted key readable. -/
theorem BoundedCache.get_insert_self (c : BoundedCache K V) (k : K) (v : V) :
    (c.insert k v).get k = some v := by
  unfold BoundedCache.insert BoundedCache.get
  split <;> exact mapGet_mapInsert_self _ k v

/-- C4.  Accessor hit/miss flow of `get_anime` and `get_manga`: a cache hit
returns the cached value with no remote call and no state change; a miss
whose remote fetch succeeds stores the entity under `id`, returns it, and a
second call for the same `id` then succeeds without a remote call
(`src/resources/anilist.rs`, lines 56-68 and 79-91). -/
theorem C4_accessor_hit_miss {Anime Manga User Character : Type}
    (s : AniList Anime Manga User Character) (id : Int) :
    ((∀ (client : Int → Except Error Anime) a,
        s.cache_anime.get id = some a →
          AniList.get_anime client s id = (Except.ok a, s, 0)) ∧
      (∀ (client : Int → Except Error Anime) a,
        s.cache_anime.get id = none → client id = Except.ok a →
          AniList.get_anime client s id
              = (Except.ok a,
                  { s with cache_anime := s.cache_anime.insert id a }, 1) ∧
            ({ s with cache_anime := s.cache_anime.insert id a
                : AniList Anime Manga User Character }).cache_anime.get id
              = some a ∧
            ∀ client2 : Int → Except Error Anime,
              AniList.get_anime client2
                  { s with cache_anime := s.cache_anime.insert id a } id
                = (Except.ok a,
                    { s with cache_anime := s.cache_anime.insert id a },
                    0))) ∧
      ((∀ (client : Int → Except Error Manga) a,
          s.cache_manga.get id = some a →
            AniList.get_manga client s id = (Except.ok a, s, 0)) ∧
        (∀ (client : Int → Except Error Manga) a,
          s.cache_manga.get id = none → client id = Except.ok a →
            AniList.get_manga client s id
                = (Except.ok a,
                    { s with cache_manga := s.cache_manga.insert id a },
                    1) ∧
              ({ s with cache_manga := s.cache_manga.insert id a
                  : AniList Anime Manga User Character }).cache_manga.get id
                = some a ∧
              ∀ client2 : Int → Except Error Manga,
                AniList.get_manga client2
                    { s with cache_manga := s.cache_manga.insert id a } id
                  = (Except.ok a,
                      { s with cache_manga := s.cache_manga.insert id a },
                      0))) := by
  constructor
  · constructor
    · intro client a hhit
      simp [AniList.get_anime, hhit]
    · intro client a hmiss hok
      have hstored : (s.cache_anime.insert id a).get id = some a :=
        BoundedCache.get_insert_self _ id a
      refine ⟨by simp [AniList.get_anime, hmiss, hok], hstored, ?_⟩
      intro client2
      simp [AniList.get_anime, hstored]
  · constructor
    · intro client a hhit
      simp [AniList.get_manga, hhit]
    · intro client a hmiss hok
      have hstored : (s.cache_manga.insert id a).get id = some a :=
        BoundedCache.get_insert_self _ id a
      refine ⟨by simp [AniList.get_manga, hmiss, hok], hstored, ?_⟩
      intro client2
      simp [AniList.get_manga, hstored]

/-- Witness for C4 at concrete inputs: a miss followed by a hit on the
anime cache, and a hit on a pre-populated manga cache. -/
theorem C4_accessor_hit_miss_witness :
    (AniList.get_anime (fun _ => Except.ok 7)
          (AniList.new : AniList Nat Nat Nat Nat) 42).2.1.cache_anime.get 42
        = some 7 ∧
      AniList.get_manga (fun _ => Except.error Error.ApiError)
          { (AniList.new : AniList Nat Nat Nat Nat) with
            cache_manga := BoundedCache.mk 50 [(42, 9)] } 42
        = (Except.ok 9,
            { (AniList.new : AniList Nat Nat Nat Nat) with
              cache_manga := BoundedCache.mk 50 [(42, 9)] }, 0) := by
  constructor
  · have h := (((C4_accessor_hit_miss
        (AniList.new : AniList Nat Nat Nat Nat) 42).1).2
      (fun _ => Except.ok 7) 7 (by decide) rfl)
    rw [h.1]
    exact h.2.1
  · exact (((C4_accessor_hit_miss
        { (AniList.new : AniList Nat Nat Nat Nat) with
          cache_manga := BoundedCache.mk 50 [(42, 9)] } 42).2).1)
      (fun _ => Except.error Error.ApiError) 9 (by decide)

/-- C5.  Failure handling of `get_anime`: on a cache miss whose remote
fetch fails, the call returns the collapsed `Error::InvalidId` value no
matter which error the remote reported, the cache state is unchanged, and a
later successful fetch for the same id still populates the cache
(`src/resources/anilist.rs`, lines 56-68). -/
theorem C5_failure_not_cached {Anime Manga User Character : Type}
    (client : Int → Except Error Anime)
    (s : AniList Anime Manga User Character) (id : Int) (e : Error)
    (hmiss : s.cache_anime.get id = none)
    (hfail : client id = Except.error e) :
    AniList.get_anime client s id = (Except.error Error.InvalidId, s, 1) ∧
      ∀ (client2 : Int → Except Error Anime) a, client2 id = Except.ok a →
        AniList.get_anime client2 s id
            = (Except.ok a,
                { s with cache_anime := s.cache_anime.insert id a }, 1) ∧
          ({ s with cache_anime := s.cache_anime.insert id a
              : AniList Anime Manga User Character }).cache_anime.get id
            = some a := by
  constructor
  · simp [AniList.get_anime, hmiss, hfail]
  · intro client2 a hok
    exact ⟨by simp [AniList.get_anime, hmiss, hok],
      BoundedCache.get_insert_self _ id a⟩

/-- Witness for C5 at concrete inputs: a transport-style failure returns
`InvalidId` and leaves the state unchanged; a retry with a working remote
populates the cache. -/
theorem C5_failure_not_cached_witness :
    AniList.get_anime (fun _ => Except.error Error.ApiError)
        (AniList.new : AniList Nat Nat Nat Nat) 42
      = (Except.error Error.InvalidId,
          (AniList.new : AniList Nat Nat Nat Nat), 1) ∧
      (AniList.get_anime (fun _ => Except.ok 7)
          (AniList.new : AniList Nat Nat Nat Nat) 42).2.1.cache_anime.get 42
        = some 7 := by
  have h := C5_failure_not_cached (fun _ => Except.error Error.ApiError)
    (AniList.new : AniList Nat Nat Nat Nat) 42 Error.ApiError
    (by decide) rfl
  refine ⟨h.1, ?_⟩
  have h2 := h.2 (fun _ => Except.ok 7) 7 rfl
  rw [h2.1]
  exact h2.2

/-- C8 counterexample.  The claim states that every `search_<kind>` call
"always calls through to the remote source"; formalizing "calls through"
as at least one remote invocation, `search_char` refutes it at a concrete
input: even with a remote that would return a result, it performs zero
remote calls. -/
theorem C8_counterexample :
    ¬ 1 ≤ (AniList.search_char (fun _ _ _ => some [7])
        (AniList.new : AniList Nat Nat Nat Nat) "naruto" 1 10).2.2 := by
  decide

/-- C8 (amended).  `search_anime`, `search_manga` and `search_user` always
call through to the remote source exactly once, return its answer, and
leave every cache unchanged; `search_char` also leaves every cache
unchanged but performs no remote call and returns `none` unconditionally
(`src/resources/anilist.rs`, lines 150-152, 165-167, 180-182, 195-203). -/
theorem C8_search_bypasses_cache {Anime Manga User Character : Type}
    (s : AniList Anime Manga User Character) (q : String)
    (page limit : Nat) :
    (∀ client : String → Nat → Nat → Option (List Anime),
        AniList.search_anime client s q page limit
          = (client q page limit, s, 1)) ∧
      (∀ client : String → Nat → Nat → Option (List Manga),
        AniList.search_manga client s q page limit
          = (client q page limit, s, 1)) ∧
      (∀ client : String → Nat → Nat → Option (List User),
        AniList.search_user client s q page limit
          = (client q page limit, s, 1)) ∧
      (∀ client : String → Nat → Nat → Option (List Character),
        AniList.search_char client s q page limit = (none, s, 0)) :=
  ⟨fun _ => rfl, fun _ => rfl, fun _ => rfl, fun _ => rfl⟩

/-- C10.  `search_char` returns `none` for every input, leaves the state
unchanged and never invokes the remote source
(`src/resources/anilist.rs`, lines 195-203). -/
theorem C10_search_char_stubbed {Anime Manga User Character : Type}
    (client : String → Nat → Nat → Option (List Character))
    (s : AniList Anime Manga User Character) (name : String)
    (page limit : Nat) :
    AniList.search_char client s name page limit = (none, s, 0) :=
  rfl

/-- Local state of one task executing `get_or_insert_with` on a fixed key:
`start` before its atomic `get`, `fetched` after a miss once its producer
has been invoked (the fetch happens outside the map lock), and
`done v invoked` once the call has returned `v`, with `invoked` recording
whether the producer ran.  Each `Cache` method of the Rust code holds the
mutex for its whole body, so the `get` and the `insert` of
`get_or_insert_with` are the two atomic steps of a task. -/
inductive TaskState (V : Type) where
  | start
  | fetched
  | done (v : V) (invoked : Bool)
deriving DecidableEq

/-- One atomic step of a task running `get_or_insert_with` on key `k` whose
producer yields `fv`. -/
def taskStep (k : K) (fv : V) :
    List (K × V) × TaskState V → List (K × V) × TaskState V
  | (m, TaskState.start) =>
    match mapGet m k with
    | some v => (m, TaskState.done v false)
    | none => (m, TaskState.fetched)
  | (m, TaskState.fetched) => (mapInsert m k fv, TaskState.done fv true)
  | (m, TaskState.done v b) => (m, TaskState.done v b)

/-- Interleaving of two concurrent `get_or_insert_with` calls on the same
key `k`: `true` schedules a step of the first call (producer value `vA`),
`false` a step of the second (producer value `vB`). -/
def sysStep (k : K) (vA vB : V)
    (st : List (K × V) × TaskState V × TaskState V) (choice : Bool) :
    List (K × V) × TaskState V × TaskState V :=
  match choice with
  | true =>
    ((taskStep k vA (st.1, st.2.1)).1, (taskStep k vA (st.1, st.2.1)).2,
      st.2.2)
  | false =>
    ((taskStep k vB (st.1, st.2.2)).1, st.2.1,
      (taskStep k vB (st.1, st.2.2)).2)

/-- Runs the two tasks under a given interleaving schedule. -/
def runSched (k : K) (vA vB : V) (sched : List Bool)
    (st : List (K × V) × TaskState V × TaskState V) :
    List (K × V) × TaskState V × TaskState V :=
  sched.foldl (sysStep k vA vB) st

/-- Reachability invariant of the two-task system: the map is empty or
holds exactly one of the two produced values under `k`, and a finished task
implies a non-empty map. -/
def DuplicateFetchInv (k : K) (vA vB : V)
    (st : List (K × V) × TaskState V × TaskState V) : Prop :=
  (st.1 = [] ∨ st.1 = [(k, vA)] ∨ st.1 = [(k, vB)]) ∧
    (∀ v b, st.2.1 = TaskState.done v b → st.1 ≠ []) ∧
    (∀ v b, st.2.2 = TaskState.done v b → st.1 ≠ [])

/-- Overwriting the only binding of a singleton map. -/
theorem mapInsert_singleton_same (k : K) (x v : V) :
    mapInsert [(k, x)] k v = [(k, v)] := by
  simp [mapInsert]

/-- A task step preserves the shape of the map, makes any `done` task's map
non-empty, and never empties the map. -/
theorem taskStep_inv (k : K) (vA vB : V) (m : List (K × V)) (t : TaskState V)
    (fv : V) (hfv : fv = vA ∨ fv = vB)
    (hm : m = [] ∨ m = [(k, vA)] ∨ m = [(k, vB)])
    (ht : ∀ v b, t = TaskState.done v b → m ≠ []) :
    ((taskStep k fv (m, t)).1 = [] ∨ (taskStep k fv (m, t)).1 = [(k, vA)] ∨
        (taskStep k fv (m, t)).1 = [(k, vB)]) ∧
      (∀ v b, (taskStep k fv (m, t)).2 = TaskState.done v b →
        (taskStep k fv (m, t)).1 ≠ []) ∧
      (m ≠ [] → (taskStep k fv (m, t)).1 ≠ []) := by
  cases t with
  | start =>
    cases hget : mapGet m k with
    | none =>
      refine ⟨by simpa [taskStep, hget] using hm, ?_, ?_⟩
      · intro v b hdone
        simp [taskStep, hget] at hdone
      · intro hne
        simpa [taskStep, hget] using hne
    | some v0 =>
      have hne : m ≠ [] := by
        intro he
        rw [he] at hget
        cases hget
      refine ⟨by simpa [taskStep, hget] using hm, ?_, ?_⟩
      · intro v b hdone
        simpa [taskStep, hget] using hne
      · intro hne2
        simpa [taskStep, hget] using hne2
  | fetched =>
    have hshape : mapInsert m k fv = [(k, fv)] := by
      rcases hm with h | h | h <;> subst h
      · rfl
      · exact mapInsert_singleton_same k vA fv
      · exact mapInsert_singleton_same k vB fv
    refine ⟨?_, ?_, ?_⟩
    · rcases hfv with h | h <;> subst h
      · exact Or.inr (Or.inl (by simpa [taskStep] using hshape))
      · exact Or.inr (Or.inr (by simpa [taskStep] using hshape))
    · intro v b hdone
      simp [taskStep, hshape]
    · intro hne
      simp [taskStep, hshape]
  | done v b =>
    exact ⟨by simpa [taskStep] using hm,
      fun v' b' hdone => by simpa [taskStep] using ht v b rfl,
      fun hne => by simpa [taskStep] using hne⟩

/-- A system step preserves the reachability invariant. -/
theorem sysStep_inv (k : K) (vA vB : V)
    (st : List (K × V) × TaskState V × TaskState V) (choice : Bool)
    (h : DuplicateFetchInv k vA vB st) :
    DuplicateFetchInv k vA vB (sysStep k vA vB st choice) := by
  obtain ⟨m, t1, t2⟩ := st
  obtain ⟨hm, h1, h2⟩ := h
  cases choice with
  | true =>
    have h3 := taskStep_inv k vA vB m t1 vA (Or.inl rfl) hm h1
    exact ⟨h3.1, h3.2.1, fun v b hdone => h3.2.2 (h2 v b hdone)⟩
  | false =>
    have h3 := taskStep_inv k vA vB m t2 vB (Or.inr rfl) hm h2
    exact ⟨h3.1, fun v b hdone => h3.2.2 (h1 v b hdone), h3.2.1⟩

/-- A whole schedule preserves the reachability invariant. -/
theorem runSched_inv (k : K) (vA vB : V) (sched : List Bool)
    (st : List (K × V) × TaskState V × TaskState V)
    (h : DuplicateFetchInv k vA vB st) :
    DuplicateFetchInv k vA vB (runSched k vA vB sched st) := by
  induction sched generalizing st with
  | nil => exact h
  | cons c rest ih =>
    simp only [runSched, List.foldl_cons]
    exact ih (sysStep k vA vB st c) (sysStep_inv k vA vB st c h)

/-- C9.  Concurrent duplicate fetch safety: for every interleaving of two
`get_or_insert_with` calls on the same key of an empty cache in which both
calls complete, the final cached value under the key is one of the two
produced values — never a merged or corrupted one; and there is a schedule
(both tasks miss, then both insert) under which both producers are invoked
(`src/resources/cache.rs`, lines 85-97). -/
theorem C9_concurrent_duplicate_fetch {V : Type} (vA vB : V) (k : K) :
    (∀ (sched : List Bool) (m : List (K × V)) (r1 r2 : V) (b1 b2 : Bool),
        runSched k vA vB sched ([], TaskState.start, TaskState.start)
            = (m, TaskState.done r1 b1, TaskState.done r2 b2) →
          mapGet m k = some vA ∨ mapGet m k = some vB) ∧
      runSched k vA vB [true, false, true, false]
          ([], TaskState.start, TaskState.start)
        = ([(k, vB)], TaskState.done vA true, TaskState.done vB true) := by
  constructor
  · intro sched m r1 r2 b1 b2 hrun
    have hinv := runSched_inv k vA vB sched
      ([], TaskState.start, TaskState.start)
      (by
        unfold DuplicateFetchInv
        refine ⟨Or.inl rfl, ?_, ?_⟩
        · intro v b h
          cases h
        · intro v b h
          cases h)
    rw [hrun] at hinv
    obtain ⟨hm, hd1, -⟩ := hinv
    have hne : m ≠ [] := hd1 r1 b1 rfl
    rcases hm with h | h | h
    · exact absurd h hne
    · subst h
      left
      simp [mapGet]
    · subst h
      right
      simp [mapGet]
  · simp [runSched, sysStep, taskStep, mapGet, mapInsert]

/-- Witness for C9 at concrete inputs: the schedule in which both tasks
miss and then insert in order ends with the second value cached, which is
one of the two produced values. -/
theorem C9_concurrent_duplicate_fetch_witness :
    mapGet [((0 : Nat), (2 : Nat))] 0 = some 1 ∨
      mapGet [((0 : Nat), (2 : Nat))] 0 = some 2 :=
  (C9_concurrent_duplicate_fetch (K := Nat) 1 2 0).1
    [true, false, true, false] [(0, 2)] 1 2 true true (by decide)

end YamataNoOrochi
